import Mathlib

/-
Shallow embedding of the SparsePage assembly engine of src/src/data/data.cc
(namespace xgboost).  Machine floats are modelled by an abstract scalar type
`FVal` (finite rationals plus the IEEE-754 specials), 32-bit column indices by
`Nat` reduced modulo 2^32 at every point where the C++ code narrows to
`bst_uint`, and the parallel loops by their sequential semantics: every loop in
the source partitions the iteration space into contiguous slices handed to
threads in ascending id order, and the builder orders records within a group by
thread id and then traversal order, so the aggregate effect equals a single
in-order traversal.
-/

namespace Xgboost

/-- Modelled from the spec: scalar values of the engine.  The C++ code works on
IEEE-754 `float`; the claims only inspect NaN-ness, infiniteness and equality
with the missing sentinel, so floats are embedded as finite rationals plus the
three special values, with IEEE equality (NaN unequal to everything). -/
inductive FVal where
  | finite (q : ℚ)
  | posInf
  | negInf
  | nan
deriving DecidableEq, Repr

/-- IEEE `isnan` (`common::CheckNAN`). -/
def FVal.isNaN : FVal → Bool
  | .nan => true
  | _ => false

/-- IEEE `std::isinf`. -/
def FVal.isInf : FVal → Bool
  | .posInf => true
  | .negInf => true
  | _ => false

/-- IEEE `std::isfinite`: neither infinite nor NaN. -/
def FVal.isFinite : FVal → Bool
  | .finite _ => true
  | _ => false

/-- IEEE `==` on floats: NaN compares unequal to everything, itself included. -/
def FVal.ieeeEq : FVal → FVal → Bool
  | .finite a, .finite b => a == b
  | .posInf, .posInf => true
  | .negInf, .negInf => true
  | _, _ => false

/-- IEEE `<` on floats: any comparison involving NaN is false. -/
def FVal.ieeeLt : FVal → FVal → Bool
  | .finite a, .finite b => a < b
  | .finite _, .posInf => true
  | .negInf, .finite _ => true
  | .negInf, .posInf => true
  | _, _ => false

/-- `xgboost::Entry` (include/xgboost/data.h): a `(column index, value)` record.
The real `index` field is `bst_uint` (`uint32_t`); writes that narrow are
reduced modulo 2^32 at the write sites. -/
structure Entry where
  index : Nat
  fvalue : FVal
deriving DecidableEq, Repr

/-- The modulus of the 32-bit `bst_uint` column index. -/
def u32Mod : Nat := 2 ^ 32

/-- `Entry::CmpIndex`: strict order by column index. -/
def Entry.cmpIndex (a b : Entry) : Prop := a.index < b.index

/-- `Entry::CmpValue`: strict order by value (IEEE `<`). -/
def Entry.cmpValue (a b : Entry) : Prop := a.fvalue.ieeeLt b.fvalue = true

/-- The non-strict order induced by `CmpIndex`; `std::is_sorted`/`std::sort`
with comparator `CmpIndex` produce/check runs where adjacent entries satisfy
`¬ CmpIndex b a`, i.e. this relation. -/
def Entry.leIndex (a b : Entry) : Prop := a.index ≤ b.index

/-- The non-strict order induced by `CmpValue` the same way. -/
def Entry.leValue (a b : Entry) : Prop := b.fvalue.ieeeLt a.fvalue = false

instance : DecidableRel Entry.cmpIndex := fun _ _ => Nat.decLt _ _
instance : DecidableRel Entry.leIndex := fun _ _ => Nat.decLe _ _
instance : DecidableRel Entry.leValue := fun _ _ => instDecidableEqBool _ _

/-- The value-initialized `Entry{}` produced by `std::vector<Entry>::resize`. -/
def entry0 : Entry := ⟨0, .finite 0⟩

/-- `xgboost::SparsePage`: CSR row-offset array, flat entry array, and the
global row id of local row 0. -/
structure SparsePage where
  offset : List Nat
  data : List Entry
  base_rowid : Nat
deriving DecidableEq, Repr

/-- `SparsePage::SparsePage()`: a fresh page has `offset = [0]`, no data. -/
def emptyPage : SparsePage := ⟨[0], [], 0⟩

/-- `SparsePage::Size()`: number of local rows, `offset.Size() - 1`
(0 when the offset array is empty). -/
def SparsePage.size (p : SparsePage) : Nat := p.offset.length - 1

/-- The row slices an offset array carves out of a data array: slice `i` is
`data[offset[i] .. offset[i+1])`, exactly the view `page[i]` used by the
source. -/
def slices (l : List Entry) : List Nat → List (List Entry)
  | a :: b :: t => (l.drop a).take (b - a) :: slices l (b :: t)
  | _ => []

/-- The view `page[i]` (an `Inst`): row `i` of the page. -/
def SparsePage.row (p : SparsePage) (i : Nat) : List Entry :=
  (slices p.data p.offset).getD i []

/-- The prefix-sum offsets the group builder derives from per-group chunk
lengths, starting from a running total `a`: `InitStorage` "turns these totals
into a prefix sum appended onto the existing offset sequence". -/
def offsetsFrom (a : Nat) : List (List Entry) → List Nat
  | [] => [a]
  | c :: cs => a :: offsetsFrom (a + c.length) cs

/-- Shape well-formedness of a page (spec §3): `offset` nonempty, starts at 0,
non-decreasing, and `data.size() == offset.back()`. -/
def SparsePage.wf (p : SparsePage) : Prop :=
  p.offset ≠ [] ∧ p.offset.headD 0 = 0 ∧ List.Chain' (· ≤ ·) p.offset ∧
    p.data.length = p.offset.getLastD 0

/-- A computation-friendly decision procedure for chains of `≤` on `Nat`
(the library instance is tactic-defined and does not reduce in the kernel). -/
def decChainLe : (l : List Nat) → Decidable (List.Chain' (· ≤ ·) l)
  | [] => isTrue (by simp)
  | [_] => isTrue (by simp)
  | a :: b :: t =>
    match Nat.decLe a b, decChainLe (b :: t) with
    | isTrue h1, isTrue h2 => isTrue (List.chain'_cons.mpr ⟨h1, h2⟩)
    | isFalse h1, _ => isFalse (fun hc => h1 (List.chain'_cons.mp hc).1)
    | _, isFalse h2 => isFalse (fun hc => h2 (List.chain'_cons.mp hc).2)

instance (p : SparsePage) : Decidable p.wf :=
  haveI : Decidable (List.Chain' (· ≤ ·) p.offset) := decChainLe p.offset
  inferInstanceAs (Decidable (p.offset ≠ [] ∧ p.offset.headD 0 = 0 ∧
    List.Chain' (· ≤ ·) p.offset ∧ p.data.length = p.offset.getLastD 0))

/-- The shape invariant of the claims: `data.size() == offset.back()` and
`offset.size() == Size() + 1` (number of local rows plus one). -/
def SparsePage.shapeOK (p : SparsePage) : Prop :=
  p.data.length = p.offset.getLastD 0 ∧ p.offset.length = p.size + 1

instance (p : SparsePage) : Decidable p.shapeOK :=
  inferInstanceAs (Decidable (_ ∧ _))

/-- `std::vector::resize(n)` on a vector of entries: truncate or pad with
value-initialized entries. -/
def listResize (l : List Entry) (n : Nat) : List Entry :=
  l.take n ++ List.replicate (n - l.length) entry0

/-- `SparsePage::Push(const SparsePage&)` (data.cc:1094): row-major
concatenation.  `top` is `offset.back()` before the call; the data vector is
resized to `top + batch.data.Size()` and the other page's entries are copied
in at position `top`; the offset vector gains `batch.Size()` entries
`top + batch.offset[i+1]`. -/
def SparsePage.push (p b : SparsePage) : SparsePage :=
  let top := p.offset.getLastD 0
  let resized := listResize p.data (top + b.data.length)
  { p with
    data := resized.take top ++ b.data
    offset := p.offset ++ (List.range (b.offset.length - 1)).map
      (fun i => top + b.offset.getD (i + 1) 0) }

/-- A COO element handed out by an adapter batch line
(`data::COOTuple`): absolute row index, column index, value. -/
structure COOTuple where
  row_idx : Nat
  column_idx : Nat
  value : FVal
deriving DecidableEq, Repr

/-- An adapter batch: `Size()` lines, each a lazy sequence of COO tuples.
Row-major batches are modelled (`kIsRowMajor`; for column-major ones the code
only forces `nthread = 1`, which the sequential semantics already subsumes). -/
abbrev AdapterBatch := List (List COOTuple)

/-- Modelled from the spec: `data::IsValidFunctor` (src/data/adapter.h is not
in the excerpt) — a value is a real entry iff it is not NaN and not IEEE-equal
to the missing sentinel.  Pass 1 of `SparsePage::Push` uses the same predicate
spelled `!CheckNAN(v) && v != missing`. -/
def isValidValue (missing v : FVal) : Bool := !v.isNaN && !(v.ieeeEq missing)

/-- The running column-count maximum of pass 1 (data.cc:1139,1167): every
element of every line contributes `column_idx + 1`, whether valid or not. -/
def batchMaxCols (batch : AdapterBatch) : Nat :=
  batch.flatten.foldl (fun m t => max m (t.column_idx + 1)) 0

/-- The elements of the batch that pass the validity filter, in traversal
order. -/
def pushValid (batch : AdapterBatch) (missing : FVal) : List COOTuple :=
  batch.flatten.filter (fun t => isValidValue missing t.value)

/-- An element's group id relative to the builder's base
(`key - builder_base_row_offset` with `key = row_idx - base_rowid`). -/
def pushRelKey (p : SparsePage) (t : COOTuple) : Nat :=
  t.row_idx - p.base_rowid - p.size

/-- The number of groups the builder ends up with: `expected_rows`
(= `batch.Size()` for a row-major batch), grown to cover the largest budgeted
group id. -/
def pushNGroups (p : SparsePage) (batch : AdapterBatch) (missing : FVal) : Nat :=
  (pushValid batch missing).foldl (fun g t => max g (pushRelKey p t + 1)) batch.length

/-- The per-group contents the placement pass produces: group `g` receives, in
traversal order, the entry `Entry(column_idx, value)` of every valid element
whose relative row is `g`, the column index narrowing to `bst_uint`. -/
def pushChunks (p : SparsePage) (batch : AdapterBatch) (missing : FVal) :
    List (List Entry) :=
  (List.range (pushNGroups p batch missing)).map (fun g =>
    ((pushValid batch missing).filter (fun t => pushRelKey p t = g)).map
      (fun t => Entry.mk (t.column_idx % u32Mod) t.value))

/-- `SparsePage::Push(AdapterBatchT const&, float missing, int32_t nthread)`
(data.cc:1112), returning `none` when the call aborts via a failed `CHECK` and
`some (page', max_columns)` otherwise.

Modelled from the spec for the parts implemented by
`common::ParallelGroupBuilder` (src/common/group_data.h is not in the
excerpt): the builder is created with `base_row_offset = this->Size()`;
`InitBudget` opens `expected_rows` (= `batch.Size()` for row-major) groups,
growing to cover the largest budgeted group id; `InitStorage` appends the
per-group totals as a prefix sum onto the existing offset array and resizes
the data array; pass-2 `Push` places each valid element in its group, records
of one group ordered by thread id then traversal order — with contiguous
ascending slices this equals one in-order traversal of the batch.

The two failure modes kept from the source: `CHECK_GE(key,
builder_base_row_offset)` in pass 1 (an element's relative row is below the
rows already present), and `CHECK(valid)` after pass 1 (`missing` is not
infinite while some element's value is infinite).  An element's entry is built
as `Entry(column_idx, value)`, the column index narrowing to `bst_uint`. -/
def SparsePage.pushBatch (p : SparsePage) (batch : AdapterBatch) (missing : FVal)
    (nthread : Nat) : Option (SparsePage × Nat) :=
  let _ := nthread
  if batch.length = 0 then some (p, 0)
  else if batch.flatten.any (fun t => t.row_idx - p.base_rowid < p.size) then none
  else if !missing.isInf && batch.flatten.any (fun t => t.value.isInf) then none
  else
    some ({ p with
            offset := p.offset ++
              (offsetsFrom (p.offset.getLastD 0) (pushChunks p batch missing)).tail
            data := p.data ++ (pushChunks p batch missing).flatten },
          batchMaxCols batch)

/-- `SparsePage::PushCSC(const SparsePage&)` (data.cc:1211), `none` when the
`CHECK_EQ` on offset-array sizes aborts.  If the other page's data is empty,
this page's offset array is replaced by the other's and its data kept; if this
page's data is empty, both arrays are adopted from the other page; otherwise
the two pages are merged feature by feature: the new chunk for feature `i` is
this page's slice `i` followed by the other's slice `i`, and the new offsets
are the running totals (the intermediate `CHECK_LE`/`CHECK_LT` bounds checks
always hold for well-formed pages and are not modelled). -/
def SparsePage.pushCSC (p b : SparsePage) : Option SparsePage :=
  if b.data = [] then some { p with offset := b.offset }
  else if p.data = [] then some { p with data := b.data, offset := b.offset }
  else if p.offset.length ≠ b.offset.length then none
  else
    let chunks := List.zipWith (· ++ ·) (slices p.data p.offset) (slices b.data b.offset)
    some { p with data := chunks.flatten, offset := offsetsFrom 0 chunks }

/-- The per-column buckets `GetTranspose` builds: every entry of row `i` is
bucketed by its column index and placed as `Entry(base_rowid + i, value)`, the
row index narrowing to `bst_uint`; one traversal in row order per the
sequential reading of the two builder passes. -/
def transChunks (p : SparsePage) (numColumns : Nat) : List (List Entry) :=
  (List.range numColumns).map (fun c =>
    (List.range p.size).flatMap (fun i =>
      ((p.row i).filter (fun e => e.index = c)).map
        (fun e => Entry.mk ((p.base_rowid + i) % u32Mod) e.fvalue)))

/-- `SparsePage::GetTranspose(int num_columns, int32_t)` (data.cc:1015), CSR →
CSC, `none` when the trailing `CHECK_EQ(transpose.offset.Size(),
num_columns + 1)` aborts (an entry's column index at or above `num_columns`
makes the builder open extra groups).  A fresh page is built with
`num_columns` groups holding `transChunks`; a source page with no data yields
`num_columns + 1` zero offsets.  The builder itself is modelled from the spec
as in `pushBatch`. -/
def SparsePage.getTranspose (p : SparsePage) (numColumns : Nat) : Option SparsePage :=
  if p.data = [] then some ⟨List.replicate (numColumns + 1) 0, [], 0⟩
  else if (List.range p.size).any (fun i => (p.row i).any (fun e => numColumns ≤ e.index))
  then none
  else some ⟨offsetsFrom 0 (transChunks p numColumns),
    (transChunks p numColumns).flatten, 0⟩

/-- `SparsePage::SortIndices(int32_t)` (data.cc:1066): each row slice is
sorted in place by `CmpIndex` (a stable sort is used as the representative;
`std::sort` leaves the order of tied entries unspecified and the claims only
depend on shape).  For a well-formed page the slices tile the data array, so
sorting each slice in place equals rebuilding the data from the sorted rows. -/
def SparsePage.sortIndices (p : SparsePage) (nthread : Nat) : SparsePage :=
  let _ := nthread
  { p with data := ((slices p.data p.offset).map
      (fun r => r.insertionSort Entry.leIndex)).flatten }

/-- `SparsePage::SortRows(int32_t)` (data.cc:1084): each nonempty row slice is
sorted in place by `CmpValue`, modelled like `sortIndices`. -/
def SparsePage.sortRows (p : SparsePage) (nthread : Nat) : SparsePage :=
  let _ := nthread
  { p with data := ((slices p.data p.offset).map
      (fun r => r.insertionSort Entry.leValue)).flatten }

/-- Boolean check that a row slice is ascending by `CmpIndex`, as
`std::is_sorted(beg, end, Entry::CmpIndex)` computes it: no adjacent pair with
`CmpIndex next prev`. -/
def rowSortedByIndex : List Entry → Bool
  | [] => true
  | [_] => true
  | a :: b :: t => decide (a.index ≤ b.index) && rowSortedByIndex (b :: t)

/-- `SparsePage::IsIndicesSorted(int32_t)` (data.cc:1049): per-thread counters
of sorted rows are accumulated and the page reports sorted iff the total
equals the row count; the per-thread counters sum to the number of sorted rows
regardless of the partition, so the aggregate is the count over all rows. -/
def SparsePage.isIndicesSorted (p : SparsePage) (nthread : Nat) : Bool :=
  let _ := nthread
  ((List.range p.size).map (fun i => if rowSortedByIndex (p.row i) then 1 else 0)).sum
    == p.size

/-- `SparsePage::Reindex(uint64_t feature_offset, int32_t)` (data.cc:1077):
`h_data[i].index += feature_offset` for every entry, a wrapping add on the
32-bit index field. -/
def SparsePage.reindex (p : SparsePage) (featureOffset : Nat) (nthread : Nat) : SparsePage :=
  let _ := nthread
  { p with data := p.data.map (fun e => { e with index := (e.index + featureOffset) % u32Mod }) }

/-- The `(row, column, value)` triples of a page, rows taken globally
(`base_rowid +` local row). -/
def SparsePage.triples (p : SparsePage) : List (Nat × Nat × FVal) :=
  (List.range p.size).flatMap (fun i =>
    (p.row i).map (fun e => (p.base_rowid + i, e.index, e.fvalue)))

/-- A list annotated with positions starting at `k`; the reasoning-friendly
counterpart of indexing a list by `List.range` and `getD`. -/
def withIdx {α : Type} (k : Nat) : List α → List (Nat × α)
  | [] => []
  | x :: xs => (k, x) :: withIdx (k + 1) xs

/-- The entries of a list of rows annotated with their row positions, in
traversal order. -/
def annotated (L : List (List Entry)) : List (Nat × Entry) :=
  (withIdx 0 L).flatMap (fun q => q.2.map (fun e => (q.1, e)))

/-- The reasoning-friendly normal form of one transpose pass over annotated
entries: bucket the pairs by entry index into `C` groups, each pair `(i, e)`
placed as `Entry(i mod 2^32, e.value)`. -/
def bucketBy (C : Nat) (l : List (Nat × Entry)) : List (List Entry) :=
  (List.range C).map (fun c =>
    (l.filter (fun x => x.2.index == c)).map
      (fun x => Entry.mk (x.1 % u32Mod) x.2.fvalue))

/- Helper lemmas: `offsetsFrom`. -/

theorem offsetsFrom_ne_nil (a : Nat) (cs : List (List Entry)) : offsetsFrom a cs ≠ [] := by
  cases cs <;> simp [offsetsFrom]

theorem head?_offsetsFrom (a : Nat) (cs : List (List Entry)) :
    (offsetsFrom a cs).head? = some a := by
  cases cs <;> simp [offsetsFrom]

theorem headD_offsetsFrom (a : Nat) (cs : List (List Entry)) :
    (offsetsFrom a cs).headD 0 = a := by
  cases cs <;> simp [offsetsFrom]

theorem length_offsetsFrom (a : Nat) (cs : List (List Entry)) :
    (offsetsFrom a cs).length = cs.length + 1 := by
  induction cs generalizing a with
  | nil => simp [offsetsFrom]
  | cons c cs ih => simp [offsetsFrom, ih]

theorem getLastD_irrel {α : Type} (b : α) (t : List α) (d e : α) :
    (b :: t).getLastD d = (b :: t).getLastD e := by
  rw [List.getLastD_cons, List.getLastD_cons]

theorem getLastD_offsetsFrom (a : Nat) (cs : List (List Entry)) :
    (offsetsFrom a cs).getLastD 0 = a + (cs.map List.length).sum := by
  induction cs generalizing a with
  | nil => simp [offsetsFrom]
  | cons c cs ih =>
    have h1 : offsetsFrom a (c :: cs) = a :: offsetsFrom (a + c.length) cs := rfl
    have h2 : offsetsFrom (a + c.length) cs =
        (a + c.length) :: (offsetsFrom (a + c.length) cs).tail := by
      cases cs <;> simp [offsetsFrom]
    rw [h1, List.getLastD_cons, h2, getLastD_irrel _ _ a 0, ← h2, ih]
    simp [Nat.add_assoc]

theorem chain'_offsetsFrom (a : Nat) (cs : List (List Entry)) :
    List.Chain' (· ≤ ·) (offsetsFrom a cs) := by
  induction cs generalizing a with
  | nil => simp [offsetsFrom]
  | cons c cs ih =>
    have h1 : offsetsFrom a (c :: cs) = a :: offsetsFrom (a + c.length) cs := rfl
    rw [h1]
    refine List.Chain'.cons' (ih _) ?_
    intro y hy
    rw [head?_offsetsFrom] at hy
    simp only [Option.mem_def, Option.some.injEq] at hy
    omega

theorem slices_offsetsFrom :
    ∀ (cs : List (List Entry)) (a : Nat) (l : List Entry),
      l.drop a = cs.flatten → slices l (offsetsFrom a cs) = cs := by
  intro cs
  induction cs with
  | nil => intro a l _; simp [offsetsFrom, slices]
  | cons c cs ih =>
    intro a l h
    have h2 : offsetsFrom (a + c.length) cs =
        (a + c.length) :: (offsetsFrom (a + c.length) cs).tail := by
      cases cs <;> simp [offsetsFrom]
    have h1 : offsetsFrom a (c :: cs) =
        a :: (a + c.length) :: (offsetsFrom (a + c.length) cs).tail := by
      rw [show offsetsFrom a (c :: cs) = a :: offsetsFrom (a + c.length) cs from rfl, ← h2]
    rw [h1]
    show (l.drop a).take (a + c.length - a) :: slices l ((a + c.length) ::
      (offsetsFrom (a + c.length) cs).tail) = c :: cs
    rw [← h2]
    have hdrop : l.drop (a + c.length) = cs.flatten := by
      rw [← List.drop_drop, h]
      simp [List.flatten_cons, List.drop_left]
    rw [ih (a + c.length) l hdrop]
    have : (l.drop a).take (a + c.length - a) = c := by
      rw [Nat.add_sub_cancel_left, h]
      simp [List.flatten_cons, List.take_left]
    rw [this]

/- Helper lemmas: `slices`. -/

theorem slices_length : ∀ (offs : List Nat) (l : List Entry),
    (slices l offs).length = offs.length - 1 := by
  intro offs
  induction offs with
  | nil => intro l; simp [slices]
  | cons a rest ih =>
    intro l
    cases rest with
    | nil => simp [slices]
    | cons b t =>
      show ((l.drop a).take (b - a) :: slices l (b :: t)).length = (a :: b :: t).length - 1
      rw [List.length_cons, ih l]
      simp

theorem chain'_head_le_getLastD {a : Nat} {rest : List Nat}
    (h : List.Chain' (· ≤ ·) (a :: rest)) : a ≤ (a :: rest).getLastD 0 := by
  induction rest generalizing a with
  | nil => simp
  | cons b t ih =>
    rw [List.chain'_cons] at h
    rw [List.getLastD_cons, getLastD_irrel b t a 0]
    exact le_trans h.1 (ih h.2)

theorem slices_flatten_aux :
    ∀ (rest : List Nat) (a : Nat) (l : List Entry),
      List.Chain' (· ≤ ·) (a :: rest) →
      (slices l (a :: rest)).flatten = (l.drop a).take ((a :: rest).getLastD 0 - a) := by
  intro rest
  induction rest with
  | nil => intro a l _; simp [slices]
  | cons b t ih =>
    intro a l h
    rw [List.chain'_cons] at h
    have hab : a ≤ b := h.1
    have hbl : b ≤ (b :: t).getLastD 0 := chain'_head_le_getLastD h.2
    show ((l.drop a).take (b - a) :: slices l (b :: t)).flatten =
      (l.drop a).take ((a :: b :: t).getLastD 0 - a)
    rw [List.flatten_cons, ih b l h.2]
    have hlast : (a :: b :: t).getLastD 0 = (b :: t).getLastD 0 := by
      rw [List.getLastD_cons]; exact getLastD_irrel b t a 0
    rw [hlast]
    have hsplit : (b :: t).getLastD 0 - a = (b - a) + ((b :: t).getLastD 0 - b) := by omega
    rw [hsplit, List.take_add, List.drop_drop]
    have : a + (b - a) = b := by omega
    rw [this]

theorem slices_flatten {l : List Entry} {offs : List Nat} (hne : offs ≠ [])
    (h0 : offs.headD 0 = 0) (hc : List.Chain' (· ≤ ·) offs)
    (hl : offs.getLastD 0 = l.length) : (slices l offs).flatten = l := by
  cases offs with
  | nil => exact absurd rfl hne
  | cons a rest =>
    have ha : a = 0 := h0
    subst ha
    rw [slices_flatten_aux rest 0 l hc, hl]
    simp

theorem mem_of_mem_slices :
    ∀ (offs : List Nat) (l r : List Entry), r ∈ slices l offs → ∀ e ∈ r, e ∈ l := by
  intro offs
  induction offs with
  | nil => intro l r hr; simp [slices] at hr
  | cons a rest ih =>
    intro l r hr e he
    cases rest with
    | nil => simp [slices] at hr
    | cons b t =>
      rw [show slices l (a :: b :: t) =
        (l.drop a).take (b - a) :: slices l (b :: t) from rfl] at hr
      rcases List.mem_cons.mp hr with h | h
      · subst h
        exact List.mem_of_mem_drop (List.mem_of_mem_take he)
      · exact ih l r h e he

theorem mem_data_of_mem_row {p : SparsePage} {i : Nat} {e : Entry}
    (h : e ∈ p.row i) : e ∈ p.data := by
  unfold SparsePage.row at h
  by_cases hi : i < (slices p.data p.offset).length
  · rw [List.getD_eq_getElem _ _ hi] at h
    exact mem_of_mem_slices p.offset p.data _ (List.getElem_mem hi) e h
  · rw [List.getD_eq_default _ _ (le_of_not_lt hi)] at h
    simp at h

/- Helper lemmas: folded maxima. -/

theorem foldl_max_le_init {α : Type} (f : α → Nat) :
    ∀ (l : List α) (a : Nat), a ≤ l.foldl (fun m t => max m (f t)) a := by
  intro l
  induction l with
  | nil => intro a; exact le_refl a
  | cons x xs ih =>
    intro a
    exact le_trans (Nat.le_max_left a (f x)) (ih (max a (f x)))

theorem foldl_max_le_of_mem {α : Type} (f : α → Nat) :
    ∀ (l : List α) (a : Nat) (x : α), x ∈ l →
      f x ≤ l.foldl (fun m t => max m (f t)) a := by
  intro l
  induction l with
  | nil => intro a x hx; simp at hx
  | cons y ys ih =>
    intro a x hx
    rcases List.mem_cons.mp hx with h | h
    · subst h
      exact le_trans (Nat.le_max_right a (f x)) (foldl_max_le_init f ys _)
    · exact ih _ x h

theorem foldl_max_eq_init_or_mem {α : Type} (f : α → Nat) :
    ∀ (l : List α) (a : Nat),
      l.foldl (fun m t => max m (f t)) a = a ∨
        ∃ x ∈ l, l.foldl (fun m t => max m (f t)) a = f x := by
  intro l
  induction l with
  | nil => intro a; left; rfl
  | cons y ys ih =>
    intro a
    rw [List.foldl_cons]
    rcases ih (max a (f y)) with h | ⟨x, hx, hfx⟩
    · rcases Nat.le_total (f y) a with hle | hle
      · left; rw [h]; exact Nat.max_eq_left hle
      · right; exact ⟨y, List.mem_cons_self y ys, by rw [h]; exact Nat.max_eq_right hle⟩
    · right; exact ⟨x, List.mem_cons_of_mem _ hx, hfx⟩

/- Helper lemmas: `withIdx` and indexing by `List.range`. -/

theorem length_withIdx {α : Type} : ∀ (L : List α) (k : Nat),
    (withIdx k L).length = L.length := by
  intro L
  induction L with
  | nil => intro k; rfl
  | cons x xs ih => intro k; simp [withIdx, ih]

theorem mem_withIdx {α : Type} : ∀ (L : List α) (k : Nat) (q : Nat × α),
    q ∈ withIdx k L → k ≤ q.1 ∧ q.1 < k + L.length ∧ q.2 ∈ L := by
  intro L
  induction L with
  | nil => intro k q hq; simp [withIdx] at hq
  | cons x xs ih =>
    intro k q hq
    rcases List.mem_cons.mp hq with h | h
    · subst h
      refine ⟨le_refl _, by simp, by simp⟩
    · obtain ⟨h1, h2, h3⟩ := ih (k + 1) q h
      refine ⟨by omega, by simp only [List.length_cons]; omega, List.mem_cons_of_mem _ h3⟩

theorem flatMap_range_withIdx {α β : Type} (d : α) :
    ∀ (L : List α) (f : Nat → α → List β) (k : Nat),
      (List.range L.length).flatMap (fun i => f (k + i) (L.getD i d)) =
        (withIdx k L).flatMap (fun q => f q.1 q.2) := by
  intro L
  induction L with
  | nil => intro f k; rfl
  | cons x xs ih =>
    intro f k
    rw [List.length_cons, List.range_succ_eq_map, List.flatMap_cons]
    have hmap : (List.map Nat.succ (List.range xs.length)).flatMap
        (fun i => f (k + i) ((x :: xs).getD i d)) =
        (List.range xs.length).flatMap (fun i => f ((k + 1) + i) (xs.getD i d)) := by
      rw [List.flatMap_def, List.map_map, List.flatMap_def]
      congr 1
      apply List.map_congr_left
      intro i _
      simp only [Function.comp_apply, Nat.succ_eq_add_one, List.getD_cons_succ]
      congr 1
      omega
    rw [hmap, ih]
    show f (k + 0) x ++ _ = (withIdx k (x :: xs)).flatMap (fun q => f q.1 q.2)
    rw [show withIdx k (x :: xs) = (k, x) :: withIdx (k + 1) xs from rfl, List.flatMap_cons]
    rw [Nat.add_zero]

theorem map_range_withIdx {α β : Type} (d : α) :
    ∀ (L : List α) (f : Nat → α → β) (k : Nat),
      (List.range L.length).map (fun i => f (k + i) (L.getD i d)) =
        (withIdx k L).map (fun q => f q.1 q.2) := by
  intro L
  induction L with
  | nil => intro f k; rfl
  | cons x xs ih =>
    intro f k
    rw [List.length_cons, List.range_succ_eq_map, List.map_cons, List.map_map]
    have hmap : (List.range xs.length).map
        ((fun i => f (k + i) ((x :: xs).getD i d)) ∘ Nat.succ) =
        (List.range xs.length).map (fun i => f ((k + 1) + i) (xs.getD i d)) := by
      apply List.map_congr_left
      intro i _
      simp only [Function.comp_apply, Nat.succ_eq_add_one, List.getD_cons_succ]
      congr 1
      omega
    rw [hmap, ih]
    show f (k + 0) x :: _ = (withIdx k (x :: xs)).map (fun q => f q.1 q.2)
    rw [show withIdx k (x :: xs) = (k, x) :: withIdx (k + 1) xs from rfl, List.map_cons]
    rw [Nat.add_zero]

/- Helper lemmas: commutations of `flatMap` with `map` and `filter`, and the
grouping permutation behind the two-pass builder. -/

theorem map_flatMap_comm {α β γ : Type} (g : β → γ) (f : α → List β) (l : List α) :
    (l.flatMap f).map g = l.flatMap (fun x => (f x).map g) := by
  induction l with
  | nil => rfl
  | cons x xs ih => simp only [List.flatMap_cons, List.map_append, ih]

theorem filter_flatMap_comm {α β : Type} (p : β → Bool) (f : α → List β) (l : List α) :
    (l.flatMap f).filter p = l.flatMap (fun x => (f x).filter p) := by
  induction l with
  | nil => rfl
  | cons x xs ih => simp only [List.flatMap_cons, List.filter_append, ih]

theorem flatMap_filter_key_perm {α : Type} (key : α → Nat) :
    ∀ (C : Nat) (l : List α), (∀ x ∈ l, key x < C) →
      ((List.range C).flatMap (fun c => l.filter (fun x => key x == c))).Perm l := by
  intro C
  induction C with
  | zero =>
    intro l hl
    cases l with
    | nil => simp
    | cons x xs => exact absurd (hl x (List.mem_cons_self x xs)) (Nat.not_lt_zero _)
  | succ C ih =>
    intro l hl
    rw [List.range_succ, List.flatMap_append, List.flatMap_cons, List.flatMap_nil,
      List.append_nil]
    have hfront : (List.range C).flatMap (fun c => l.filter (fun x => key x == c)) =
        (List.range C).flatMap
          (fun c => (l.filter (fun x => !(key x == C))).filter (fun x => key x == c)) := by
      rw [List.flatMap_def, List.flatMap_def]
      congr 1
      apply List.map_congr_left
      intro c hc
      rw [List.filter_filter]
      apply List.filter_congr
      intro x _
      cases h : (key x == C) with
      | false => simp [h]
      | true =>
        have hxc : key x = C := by simpa using h
        have : ¬ (key x == c) = true := by
          simp only [beq_iff_eq]
          have := List.mem_range.mp hc
          omega
        simp [h, Bool.eq_false_iff.mpr this]
    have hl' : ∀ x ∈ l.filter (fun x => !(key x == C)), key x < C := by
      intro x hx
      obtain ⟨hxl, hxp⟩ := List.mem_filter.mp hx
      have h1 := hl x hxl
      have h2 : key x ≠ C := by
        intro hc
        simp [hc] at hxp
      omega
    have hperm := ih (l.filter (fun x => !(key x == C))) hl'
    refine List.Perm.trans (List.Perm.append_right _ (by rw [hfront])) ?_
    refine List.Perm.trans (List.Perm.append_right _ hperm) ?_
    have := List.filter_append_perm (fun x => !(key x == C)) l
    have hnn : (fun x => !!(key x == C)) = (fun x => (key x == C)) := by
      funext x
      exact Bool.not_not _
    rw [hnn] at this
    exact this


/- Helper lemmas: heads, lasts and appends of offset arrays. -/

theorem getLast?_eq_some_getLastD {α : Type} :
    ∀ (l : List α) (d : α), l ≠ [] → l.getLast? = some (l.getLastD d) := by
  intro l
  induction l with
  | nil => intro d h; exact absurd rfl h
  | cons x t ih =>
    intro d _
    cases t with
    | nil => rfl
    | cons y t2 =>
      rw [List.getLast?_cons_cons, ih x (by simp)]
      simp only [List.getLastD_cons]

theorem getLastD_append_of_ne_nil {α : Type} :
    ∀ (L M : List α) (d : α), M ≠ [] → (L ++ M).getLastD d = M.getLastD d := by
  intro L
  induction L with
  | nil => intro M d _; rfl
  | cons a L ih =>
    intro M d hM
    rw [List.cons_append, List.getLastD_cons, ih M a hM]
    cases M with
    | nil => exact absurd rfl hM
    | cons m ms => exact getLastD_irrel m ms a d

theorem getLastD_map_of_ne_nil {α β : Type} (f : α → β) :
    ∀ (l : List α) (d : β) (e : α), l ≠ [] → (l.map f).getLastD d = f (l.getLastD e) := by
  intro l
  induction l with
  | nil => intro d e h; exact absurd rfl h
  | cons x t ih =>
    intro d e _
    cases t with
    | nil => rfl
    | cons y t2 =>
      rw [List.map_cons, List.getLastD_cons, List.getLastD_cons,
        ih (f x) x (by simp)]

theorem headD_append_of_ne_nil {α : Type} (L M : List α) (d : α) (h : L ≠ []) :
    (L ++ M).headD d = L.headD d := by
  cases L with
  | nil => exact absurd rfl h
  | cons a t => rfl

theorem map_snd_withIdx {α : Type} : ∀ (L : List α) (k : Nat),
    (withIdx k L).map Prod.snd = L := by
  intro L
  induction L with
  | nil => intro k; rfl
  | cons x xs ih => intro k; simp [withIdx, ih]

theorem map_range_getD_eq_map {α β : Type} (d : α) (L : List α) (g : α → β) :
    (List.range L.length).map (fun i => g (L.getD i d)) = L.map g := by
  rw [show (fun i => g (L.getD i d)) = (fun i => (fun _ x => g x) (0 + i) (L.getD i d))
    from rfl]
  rw [map_range_withIdx d L (fun _ x => g x) 0]
  rw [show (fun q : Nat × _ => g q.2) = (g ∘ Prod.snd) from rfl, ← List.map_map,
    map_snd_withIdx]

theorem chain'_replicate_zero : ∀ (n : Nat), List.Chain' (· ≤ ·) (List.replicate n 0) := by
  intro n
  induction n with
  | zero => simp
  | succ n ih =>
    rw [List.replicate_succ]
    refine List.Chain'.cons' ih ?_
    intro y hy
    cases n with
    | zero => simp at hy
    | succ m =>
      rw [List.replicate_succ] at hy
      simp only [List.head?_cons, Option.mem_def, Option.some.injEq] at hy
      omega

/- Helper lemmas: well-formedness preservation. -/

theorem shapeOK_of_wf {p : SparsePage} (h : p.wf) : p.shapeOK := by
  obtain ⟨h1, _, _, h4⟩ := h
  refine ⟨h4, ?_⟩
  unfold SparsePage.size
  cases hoff : p.offset with
  | nil => exact absurd hoff h1
  | cons a t => simp

theorem push_data {p b : SparsePage} (hp : p.wf) : (p.push b).data = p.data ++ b.data := by
  obtain ⟨_, _, _, hp4⟩ := hp
  show (listResize p.data (p.offset.getLastD 0 + b.data.length)).take
    (p.offset.getLastD 0) ++ b.data = p.data ++ b.data
  congr 1
  unfold listResize
  rw [show p.data.take (p.offset.getLastD 0 + b.data.length) = p.data from
    List.take_of_length_le (by omega)]
  rw [← hp4, List.take_left]

theorem push_offset {p b : SparsePage} :
    (p.push b).offset =
      p.offset ++ b.offset.tail.map (fun o => p.offset.getLastD 0 + o) := by
  show p.offset ++ (List.range (b.offset.length - 1)).map
      (fun i => p.offset.getLastD 0 + b.offset.getD (i + 1) 0) = _
  congr 1
  cases b.offset with
  | nil => rfl
  | cons x t =>
    rw [show (x :: t).length - 1 = t.length from by simp, List.tail_cons]
    rw [show (fun i => p.offset.getLastD 0 + (x :: t).getD (i + 1) 0) =
      (fun i => (fun o => p.offset.getLastD 0 + o) (t.getD i 0)) from by
        funext i; rw [List.getD_cons_succ]]
    exact map_range_getD_eq_map 0 t (fun o => p.offset.getLastD 0 + o)

theorem wf_push {p b : SparsePage} (hp : p.wf) (hb : b.wf) : (p.push b).wf := by
  have hd := push_data (b := b) hp
  have ho := push_offset (p := p) (b := b)
  obtain ⟨hp1, hp2, hp3, hp4⟩ := hp
  obtain ⟨hb1, hb2, hb3, hb4⟩ := hb
  refine ⟨?_, ?_, ?_, ?_⟩
  · rw [ho]; intro hcon; exact hp1 (List.append_eq_nil.mp hcon).1
  · rw [ho, headD_append_of_ne_nil _ _ _ hp1]; exact hp2
  · rw [ho]
    rw [List.chain'_append]
    refine ⟨hp3, ?_, ?_⟩
    · rw [List.chain'_map]
      exact List.Chain'.imp (fun a b hab => by omega) (List.Chain'.tail hb3)
    · intro x hx y hy
      rw [getLast?_eq_some_getLastD p.offset 0 hp1] at hx
      simp only [Option.mem_def, Option.some.injEq] at hx
      subst hx
      rw [List.head?_map] at hy
      cases ht : b.offset.tail.head? with
      | none => rw [ht] at hy; simp at hy
      | some z =>
        rw [ht] at hy
        simp at hy
        subst hy
        rw [List.getLastD_eq_getLast?]
        exact Nat.le_add_right _ _
  · rw [ho, hd]
    cases htail2 : b.offset.tail with
    | nil =>
      have hbo : b.offset = [0] := by
        cases hoff : b.offset with
        | nil => exact absurd hoff hb1
        | cons a t =>
          rw [hoff] at htail2 hb2
          simp only [List.tail_cons] at htail2
          subst htail2
          simp only [List.headD_cons] at hb2
          rw [hb2]
      have hbd : b.data = [] := by
        rw [hbo] at hb4
        simpa using hb4
      rw [hbd]
      simp [hp4]
    | cons y t =>
      rw [getLastD_append_of_ne_nil _ _ _ (by simp),
        getLastD_map_of_ne_nil _ _ _ 0 (by simp)]
      have hlast : (y :: t).getLastD 0 = b.offset.getLastD 0 := by
        cases hoff : b.offset with
        | nil => exact absurd hoff hb1
        | cons a s =>
          rw [hoff] at htail2
          simp only [List.tail_cons] at htail2
          subst htail2
          simp only [List.getLastD_cons]
      rw [hlast, ← hb4, List.length_append, hp4]

theorem wf_builder_page {offs : List Nat} {l : List Entry} {base : Nat}
    (chunks : List (List Entry)) (hoffs : offs = offsetsFrom 0 chunks)
    (hl : l = chunks.flatten) : SparsePage.wf ⟨offs, l, base⟩ := by
  subst hoffs hl
  refine ⟨offsetsFrom_ne_nil 0 chunks, headD_offsetsFrom 0 chunks,
    chain'_offsetsFrom 0 chunks, ?_⟩
  rw [getLastD_offsetsFrom, List.length_flatten]
  omega

theorem wf_append_chunks {p : SparsePage} (hp : p.wf) (chunks : List (List Entry))
    (hch : chunks ≠ []) (base2 : Nat) :
    SparsePage.wf ⟨p.offset ++ (offsetsFrom (p.offset.getLastD 0) chunks).tail,
      p.data ++ chunks.flatten, base2⟩ := by
  obtain ⟨hp1, hp2, hp3, hp4⟩ := hp
  obtain ⟨c, cs, hcc⟩ : ∃ c cs, chunks = c :: cs := by
    cases chunks with
    | nil => exact absurd rfl hch
    | cons c cs => exact ⟨c, cs, rfl⟩
  subst hcc
  have hof : offsetsFrom (p.offset.getLastD 0) (c :: cs) =
      p.offset.getLastD 0 :: offsetsFrom (p.offset.getLastD 0 + c.length) cs := rfl
  refine ⟨?_, ?_, ?_, ?_⟩
  · intro hcon; exact hp1 (List.append_eq_nil.mp hcon).1
  · rw [headD_append_of_ne_nil _ _ _ hp1]; exact hp2
  · rw [List.chain'_append]
    refine ⟨hp3, ?_, ?_⟩
    · rw [hof, List.tail_cons]
      exact chain'_offsetsFrom _ cs
    · intro x hx y hy
      rw [getLast?_eq_some_getLastD p.offset 0 hp1] at hx
      simp only [Option.mem_def, Option.some.injEq] at hx
      subst hx
      rw [hof, List.tail_cons, head?_offsetsFrom] at hy
      simp only [Option.mem_def, Option.some.injEq] at hy
      omega
  · rw [hof, List.tail_cons]
    rw [getLastD_append_of_ne_nil _ _ _ (offsetsFrom_ne_nil _ cs),
      getLastD_offsetsFrom]
    rw [List.length_append, hp4, List.length_flatten]
    simp [Nat.add_assoc]


theorem pushChunks_ne_nil {p : SparsePage} {batch : AdapterBatch} {missing : FVal}
    (h0 : batch.length ≠ 0) : pushChunks p batch missing ≠ [] := by
  unfold pushChunks
  intro hcon
  rw [List.map_eq_nil_iff, List.range_eq_nil] at hcon
  have h1 : batch.length ≤ pushNGroups p batch missing :=
    foldl_max_le_init _ (pushValid batch missing) batch.length
  omega

theorem wf_pushBatch {p : SparsePage} {batch : AdapterBatch} {missing : FVal}
    {n : Nat} {q : SparsePage} {m : Nat} (hp : p.wf)
    (h : p.pushBatch batch missing n = some (q, m)) : q.wf := by
  unfold SparsePage.pushBatch at h
  by_cases h0 : batch.length = 0
  · rw [if_pos h0] at h
    rw [Option.some.injEq, Prod.mk.injEq] at h
    rw [← h.1]
    exact hp
  · rw [if_neg h0] at h
    by_cases h1 : (batch.flatten.any (fun t => t.row_idx - p.base_rowid < p.size)) = true
    · rw [if_pos h1] at h; exact absurd h (by simp)
    · rw [if_neg h1] at h
      by_cases h2 : (!missing.isInf && batch.flatten.any (fun t => t.value.isInf)) = true
      · rw [if_pos h2] at h; exact absurd h (by simp)
      · rw [if_neg h2] at h
        rw [Option.some.injEq, Prod.mk.injEq] at h
        rw [← h.1]
        exact wf_append_chunks hp (pushChunks p batch missing)
          (pushChunks_ne_nil h0) p.base_rowid

theorem wf_sortBy {p : SparsePage} (hp : p.wf) (r : Entry → Entry → Prop)
    [DecidableRel r] :
    SparsePage.wf { p with
      data := ((slices p.data p.offset).map (fun x => x.insertionSort r)).flatten } := by
  obtain ⟨h1, h2, h3, h4⟩ := hp
  refine ⟨h1, h2, h3, ?_⟩
  show (((slices p.data p.offset).map (fun x => x.insertionSort r)).flatten).length =
    p.offset.getLastD 0
  rw [List.length_flatten, List.map_map]
  have hlen : List.map (List.length ∘ fun x => x.insertionSort r) (slices p.data p.offset)
      = List.map List.length (slices p.data p.offset) := by
    apply List.map_congr_left
    intro x _
    exact List.length_insertionSort r x
  rw [hlen, ← List.length_flatten, slices_flatten h1 h2 h3 h4.symm, h4]

theorem wf_sortIndices {p : SparsePage} (hp : p.wf) (n : Nat) : (p.sortIndices n).wf :=
  wf_sortBy hp Entry.leIndex

theorem wf_sortRows {p : SparsePage} (hp : p.wf) (n : Nat) : (p.sortRows n).wf :=
  wf_sortBy hp Entry.leValue

theorem wf_reindex {p : SparsePage} (hp : p.wf) (fo n : Nat) : (p.reindex fo n).wf := by
  obtain ⟨h1, h2, h3, h4⟩ := hp
  refine ⟨h1, h2, h3, ?_⟩
  show (p.data.map _).length = p.offset.getLastD 0
  rw [List.length_map]
  exact h4

theorem getLastD_replicate_zero : ∀ (n : Nat), (List.replicate n 0).getLastD 0 = 0 := by
  intro n
  induction n with
  | zero => rfl
  | succ n ih => rw [List.replicate_succ, List.getLastD_cons]; exact ih

theorem wf_pushCSC {p b q : SparsePage} (hb : b.wf)
    (hcond : b.data ≠ [] ∨ p.data = []) (h : p.pushCSC b = some q) : q.wf := by
  obtain ⟨hb1, hb2, hb3, hb4⟩ := hb
  unfold SparsePage.pushCSC at h
  by_cases hbd : b.data = []
  · rw [if_pos hbd] at h
    rw [Option.some.injEq] at h
    rw [← h]
    have hpd : p.data = [] := by
      rcases hcond with hc | hc
      · exact absurd hbd hc
      · exact hc
    refine ⟨hb1, hb2, hb3, ?_⟩
    show p.data.length = b.offset.getLastD 0
    rw [hpd, ← hb4, hbd]
  · rw [if_neg hbd] at h
    by_cases hpd : p.data = []
    · rw [if_pos hpd] at h
      rw [Option.some.injEq] at h
      rw [← h]
      exact ⟨hb1, hb2, hb3, hb4⟩
    · rw [if_neg hpd] at h
      by_cases hlen : p.offset.length ≠ b.offset.length
      · rw [if_pos hlen] at h; exact absurd h (by simp)
      · rw [if_neg hlen] at h
        rw [Option.some.injEq] at h
        rw [← h]
        exact wf_builder_page _ rfl rfl

theorem wf_getTranspose {p : SparsePage} {numColumns : Nat} {q : SparsePage}
    (h : p.getTranspose numColumns = some q) : q.wf := by
  unfold SparsePage.getTranspose at h
  by_cases hpd : p.data = []
  · rw [if_pos hpd] at h
    rw [Option.some.injEq] at h
    rw [← h]
    refine ⟨by simp, by simp [List.replicate_succ], ?_, ?_⟩
    · exact chain'_replicate_zero (numColumns + 1)
    · show (0 : Nat) = (List.replicate (numColumns + 1) 0).getLastD 0
      rw [getLastD_replicate_zero]
  · rw [if_neg hpd] at h
    by_cases hoob : ((List.range p.size).any
        (fun i => (p.row i).any (fun e => numColumns ≤ e.index))) = true
    · rw [if_pos hoob] at h; exact absurd h (by simp)
    · rw [if_neg hoob] at h
      rw [Option.some.injEq] at h
      rw [← h]
      exact wf_builder_page _ rfl rfl

/- Helper lemmas: rows of a page. -/

theorem slices_of_builder (chunks : List (List Entry)) :
    slices chunks.flatten (offsetsFrom 0 chunks) = chunks :=
  slices_offsetsFrom chunks 0 chunks.flatten (by rw [List.drop_zero])

theorem row_of_builder (chunks : List (List Entry)) (base : Nat) (i : Nat) :
    SparsePage.row ⟨offsetsFrom 0 chunks, chunks.flatten, base⟩ i = chunks.getD i [] := by
  unfold SparsePage.row
  show (slices chunks.flatten (offsetsFrom 0 chunks)).getD i [] = chunks.getD i []
  rw [slices_of_builder]

theorem size_of_builder (chunks : List (List Entry)) (base : Nat) :
    SparsePage.size ⟨offsetsFrom 0 chunks, chunks.flatten, base⟩ = chunks.length := by
  unfold SparsePage.size
  show (offsetsFrom 0 chunks).length - 1 = chunks.length
  rw [length_offsetsFrom]
  omega

theorem size_eq_slices_length (p : SparsePage) :
    (slices p.data p.offset).length = p.size := by
  rw [slices_length]
  rfl


/- Helper lemmas: sortedness indicators. -/

theorem rowSortedByIndex_iff (l : List Entry) :
    rowSortedByIndex l = true ↔ List.Chain' Entry.leIndex l := by
  induction l with
  | nil => simp [rowSortedByIndex]
  | cons a t ih =>
    cases t with
    | nil => simp [rowSortedByIndex]
    | cons b t2 =>
      show (decide (a.index ≤ b.index) && rowSortedByIndex (b :: t2)) = true ↔ _
      rw [Bool.and_eq_true, decide_eq_true_eq, List.chain'_cons, ih]
      exact Iff.rfl

theorem sum_indicator_le (q : Nat → Prop) [DecidablePred q] :
    ∀ n : Nat, ((List.range n).map (fun i => if q i then 1 else 0)).sum ≤ n := by
  intro n
  induction n with
  | zero => simp
  | succ n ih =>
    rw [List.range_succ, List.map_append, List.sum_append]
    have : ([n].map (fun i => if q i then 1 else 0)).sum ≤ 1 := by
      by_cases hq : q n <;> simp [hq]
    omega

theorem sum_indicator_eq_iff (q : Nat → Prop) [DecidablePred q] :
    ∀ n : Nat, ((List.range n).map (fun i => if q i then 1 else 0)).sum = n ↔
      ∀ i, i < n → q i := by
  intro n
  induction n with
  | zero => simp
  | succ n ih =>
    rw [List.range_succ, List.map_append, List.sum_append]
    have hle := sum_indicator_le q n
    constructor
    · intro h
      have hqn : q n := by
        by_cases hq : q n
        · exact hq
        · simp [hq] at h; omega
      have hsum : ((List.range n).map (fun i => if q i then 1 else 0)).sum = n := by
        simp [hqn] at h; omega
      intro i hi
      rcases Nat.lt_succ_iff_lt_or_eq.mp hi with hlt | heq
      · exact (ih.mp hsum) i hlt
      · rw [heq]; exact hqn
    · intro h
      have hqn : q n := h n (Nat.lt_succ_self n)
      have hsum := ih.mpr (fun i hi => h i (Nat.lt_succ_of_lt hi))
      simp [hqn, hsum]

/- The claims. -/

/-- C6: pushing an adapter batch with zero lines returns 0 and leaves the
page — offset, data and base_rowid — unchanged: the operation early-returns
before either pass. -/
theorem c6_empty_batch_noop (p : SparsePage) (missing : FVal) (nthread : Nat) :
    p.pushBatch [] missing nthread = some (p, 0) := rfl

/-- C4: pushing the single-row batch with values [1.0, NaN, 0.0, 0.0] at
columns [0,1,2,3] and missing sentinel 0.0 onto an empty page produces a page
whose single row holds exactly the entry (column 0, value 1.0): the NaN and
the two sentinel-valued elements are dropped, every other element is kept, and
the returned column count is 4. -/
theorem c4_validity_filter :
    SparsePage.pushBatch emptyPage
        [[⟨0, 0, .finite 1⟩, ⟨0, 1, .nan⟩, ⟨0, 2, .finite 0⟩, ⟨0, 3, .finite 0⟩]]
        (.finite 0) 1 =
      some (⟨[0, 1], [⟨0, .finite 1⟩], 0⟩, 4) ∧
    SparsePage.row ⟨[0, 1], [⟨0, .finite 1⟩], 0⟩ 0 = [⟨0, .finite 1⟩] := by
  decide

/-- C7: Push of another page appends the other page's entries after this
page's data and extends the offset array by the other's offsets (skipping the
leading 0), each shifted by the value this page's offset.back() had before the
call; base_rowid is unchanged and the argument page, the model being
functional, is untouched. -/
theorem c7_push_page_append (p b : SparsePage) (hp : p.wf) :
    (p.push b).data = p.data ++ b.data ∧
    (p.push b).offset =
      p.offset ++ b.offset.tail.map (fun o => p.offset.getLastD 0 + o) ∧
    (p.push b).base_rowid = p.base_rowid :=
  ⟨push_data hp, push_offset, rfl⟩

/-- C7 witness: the theorem applied to a concrete well-formed pair of pages. -/
theorem c7_push_page_append_witness :
    (SparsePage.push ⟨[0, 2], [⟨0, .finite 1⟩, ⟨1, .finite 2⟩], 0⟩
        ⟨[0, 1, 1], [⟨5, .finite 9⟩], 0⟩).data =
      [⟨0, .finite 1⟩, ⟨1, .finite 2⟩] ++ [⟨5, .finite 9⟩] ∧
    (SparsePage.push ⟨[0, 2], [⟨0, .finite 1⟩, ⟨1, .finite 2⟩], 0⟩
        ⟨[0, 1, 1], [⟨5, .finite 9⟩], 0⟩).offset =
      [0, 2] ++ ([1, 1].map (fun o => ([0, 2] : List Nat).getLastD 0 + o)) ∧
    (SparsePage.push ⟨[0, 2], [⟨0, .finite 1⟩, ⟨1, .finite 2⟩], 0⟩
        ⟨[0, 1, 1], [⟨5, .finite 9⟩], 0⟩).base_rowid = 0 :=
  c7_push_page_append ⟨[0, 2], [⟨0, .finite 1⟩, ⟨1, .finite 2⟩], 0⟩
    ⟨[0, 1, 1], [⟨5, .finite 9⟩], 0⟩ (by decide)

/-- C10: Reindex only rewrites each entry's column index, by the (32-bit
wrapping) addition of feature_offset; the offset array, base_rowid, row count,
entry count and every entry's value are unchanged. -/
theorem c10_reindex_frame (p : SparsePage) (fo n i : Nat) (hi : i < p.data.length) :
    (p.reindex fo n).offset = p.offset ∧
    (p.reindex fo n).base_rowid = p.base_rowid ∧
    (p.reindex fo n).size = p.size ∧
    (p.reindex fo n).data.length = p.data.length ∧
    ((p.reindex fo n).data.getD i entry0).fvalue = (p.data.getD i entry0).fvalue ∧
    ((p.reindex fo n).data.getD i entry0).index =
      ((p.data.getD i entry0).index + fo) % u32Mod := by
  have hlen : (p.reindex fo n).data.length = p.data.length := by
    show (p.data.map _).length = p.data.length
    rw [List.length_map]
  have hmap : (p.reindex fo n).data.getD i entry0 =
      (fun e => { e with index := (e.index + fo) % u32Mod }) (p.data.getD i entry0) := by
    show (p.data.map _).getD i entry0 = _
    rw [List.getD_eq_getElem _ _ (by rw [List.length_map]; exact hi),
      List.getElem_map, List.getD_eq_getElem _ _ hi]
  exact ⟨rfl, rfl, rfl, hlen, by rw [hmap], by rw [hmap]⟩

/-- C10 witness: the theorem applied to a concrete page and offset. -/
theorem c10_reindex_frame_witness :
    (SparsePage.reindex ⟨[0, 2], [⟨1, .finite 5⟩, ⟨3, .finite 7⟩], 0⟩ 7 2).offset =
      [0, 2] ∧
    (SparsePage.reindex ⟨[0, 2], [⟨1, .finite 5⟩, ⟨3, .finite 7⟩], 0⟩ 7 2).base_rowid = 0 ∧
    (SparsePage.reindex ⟨[0, 2], [⟨1, .finite 5⟩, ⟨3, .finite 7⟩], 0⟩ 7 2).size =
      SparsePage.size ⟨[0, 2], [⟨1, .finite 5⟩, ⟨3, .finite 7⟩], 0⟩ ∧
    (SparsePage.reindex ⟨[0, 2], [⟨1, .finite 5⟩, ⟨3, .finite 7⟩], 0⟩ 7 2).data.length = 2 ∧
    ((SparsePage.reindex ⟨[0, 2], [⟨1, .finite 5⟩, ⟨3, .finite 7⟩], 0⟩ 7 2).data.getD 1
      entry0).fvalue = FVal.finite 7 ∧
    ((SparsePage.reindex ⟨[0, 2], [⟨1, .finite 5⟩, ⟨3, .finite 7⟩], 0⟩ 7 2).data.getD 1
      entry0).index = (3 + 7) % u32Mod :=
  c10_reindex_frame ⟨[0, 2], [⟨1, .finite 5⟩, ⟨3, .finite 7⟩], 0⟩ 7 2 1 (by decide)

/-- C9: IsIndicesSorted returns true iff every row slice is ascending by
column index in the sense of CmpIndex (no adjacent pair decreasing); a single
unsorted row anywhere therefore makes it return false. -/
theorem c9_isIndicesSorted_iff (p : SparsePage) (nthread : Nat) :
    p.isIndicesSorted nthread = true ↔
      ∀ i, i < p.size → List.Chain' Entry.leIndex (p.row i) := by
  unfold SparsePage.isIndicesSorted
  rw [beq_iff_eq]
  rw [sum_indicator_eq_iff (fun i => rowSortedByIndex (p.row i) = true) p.size]
  constructor
  · intro h i hi
    exact (rowSortedByIndex_iff (p.row i)).mp (h i hi)
  · intro h i hi
    exact (rowSortedByIndex_iff (p.row i)).mpr (h i hi)

/-- C9 witness: the equivalence applied to a concrete sorted page. -/
theorem c9_isIndicesSorted_iff_witness :
    SparsePage.isIndicesSorted ⟨[0, 2], [⟨0, .finite 1⟩, ⟨2, .finite 2⟩], 0⟩ 4 = true :=
  (c9_isIndicesSorted_iff ⟨[0, 2], [⟨0, .finite 1⟩, ⟨2, .finite 2⟩], 0⟩ 4).mpr (by
    intro i hi
    have hi0 : i = 0 := by
      simp only [SparsePage.size, List.length_cons, List.length_nil] at hi
      omega
    subst hi0
    exact (rowSortedByIndex_iff _).mp (by decide))

/-- C5: a Push of an adapter batch that returns (so no CHECK aborted it), fed
at least one element, reports the maximum column index over every element of
the batch plus one, the maximum being taken whether or not an element passes
the validity filter. -/
theorem c5_max_columns (p : SparsePage) (batch : AdapterBatch) (missing : FVal)
    (nthread : Nat) (q : SparsePage) (m : Nat)
    (h : p.pushBatch batch missing nthread = some (q, m))
    (hne : batch.flatten ≠ []) :
    (∀ t ∈ batch.flatten, t.column_idx + 1 ≤ m) ∧
      ∃ t ∈ batch.flatten, m = t.column_idx + 1 := by
  have hm : m = batchMaxCols batch := by
    unfold SparsePage.pushBatch at h
    have h0 : ¬ batch.length = 0 := by
      intro hc
      rw [List.length_eq_zero] at hc
      rw [hc] at hne
      exact hne rfl
    rw [if_neg h0] at h
    by_cases h1 : (batch.flatten.any (fun t => t.row_idx - p.base_rowid < p.size)) = true
    · rw [if_pos h1] at h; exact absurd h (by simp)
    · rw [if_neg h1] at h
      by_cases h2 : (!missing.isInf && batch.flatten.any (fun t => t.value.isInf)) = true
      · rw [if_pos h2] at h; exact absurd h (by simp)
      · rw [if_neg h2] at h
        rw [Option.some.injEq, Prod.mk.injEq] at h
        exact h.2.symm
  subst hm
  constructor
  · intro t ht
    exact foldl_max_le_of_mem (fun t => t.column_idx + 1) batch.flatten 0 t ht
  · rcases foldl_max_eq_init_or_mem (fun t => t.column_idx + 1) batch.flatten 0 with
      hz | ⟨x, hx, hfx⟩
    · obtain ⟨t, ht⟩ := List.exists_mem_of_ne_nil batch.flatten hne
      have hle : t.column_idx + 1 ≤ batchMaxCols batch :=
        foldl_max_le_of_mem (fun t => t.column_idx + 1) batch.flatten 0 t ht
      have hz2 : batchMaxCols batch = 0 := hz
      omega
    · exact ⟨x, hx, hfx⟩

/-- C5 witness: the theorem applied to a concrete two-element batch with max
column index 2, one element being filtered out. -/
theorem c5_max_columns_witness :
    (∀ t ∈ ([[⟨0, 2, .finite 5⟩, ⟨0, 0, .nan⟩]] : AdapterBatch).flatten,
      t.column_idx + 1 ≤ 3) ∧
    ∃ t ∈ ([[⟨0, 2, .finite 5⟩, ⟨0, 0, .nan⟩]] : AdapterBatch).flatten,
      3 = t.column_idx + 1 :=
  c5_max_columns emptyPage [[⟨0, 2, .finite 5⟩, ⟨0, 0, .nan⟩]] (.finite 0) 1
    ⟨[0, 1], [⟨2, .finite 5⟩], 0⟩ 3 (by decide) (by decide)


/-- C2 counterexample: with the missing sentinel NaN — which is not finite —
and a single infinite value, the push still aborts; the claim's "fails iff
missing is finite and some value is infinite" is wrong at this input, because
the code tests `!std::isinf(missing)`, which also holds for NaN. -/
theorem c2_counterexample :
    SparsePage.pushBatch emptyPage [[⟨0, 0, .posInf⟩]] .nan 1 = none ∧
    FVal.isFinite .nan = false := by decide

/-- C2 (amended): for a batch whose elements respect the row contract, the
push fails iff the missing sentinel is not infinite (finite or NaN) while
some element's value is infinite; with an infinite sentinel, infinite values
never cause failure. -/
theorem c2_inf_failure (p : SparsePage) (batch : AdapterBatch) (missing : FVal)
    (nthread : Nat)
    (hrow : ∀ t ∈ batch.flatten, p.base_rowid + p.size ≤ t.row_idx) :
    p.pushBatch batch missing nthread = none ↔
      missing.isInf = false ∧ ∃ t ∈ batch.flatten, t.value.isInf = true := by
  unfold SparsePage.pushBatch
  by_cases h0 : batch.length = 0
  · rw [if_pos h0]
    rw [List.length_eq_zero] at h0
    subst h0
    constructor
    · intro hcon
      exact absurd hcon (by simp)
    · rintro ⟨_, t, ht, _⟩
      simp at ht
  · rw [if_neg h0]
    have h1 : (batch.flatten.any fun t => t.row_idx - p.base_rowid < p.size) = false := by
      rw [List.any_eq_false]
      intro t ht
      have := hrow t ht
      simp only [decide_eq_true_eq]
      omega
    simp only [h1, Bool.false_eq_true, if_false]
    by_cases h2 : (!missing.isInf && batch.flatten.any fun t => t.value.isInf) = true
    · rw [if_pos h2]
      rw [Bool.and_eq_true, Bool.not_eq_eq_eq_not, Bool.not_true, List.any_eq_true] at h2
      constructor
      · intro _
        exact ⟨h2.1, h2.2⟩
      · intro _
        rfl
    · rw [if_neg h2]
      constructor
      · intro hcon
        exact absurd hcon (by simp)
      · rintro ⟨hfin, t, ht, hv⟩
        exfalso
        apply h2
        rw [Bool.and_eq_true]
        exact ⟨by rw [hfin]; rfl, List.any_eq_true.mpr ⟨t, ht, hv⟩⟩

/-- C2 witness: the amended equivalence applied to a concrete batch with a
finite sentinel and one infinite value: the push fails. -/
theorem c2_inf_failure_witness :
    SparsePage.pushBatch emptyPage [[⟨0, 0, .posInf⟩, ⟨0, 1, .finite 2⟩]]
        (.finite 0) 1 = none :=
  (c2_inf_failure emptyPage [[⟨0, 0, .posInf⟩, ⟨0, 1, .finite 2⟩]] (.finite 0) 1
    (by decide)).mpr (by decide)

/-- C3 counterexample: merging a data-empty page into a non-empty one replaces
the offsets — the claim says the receiving page's offsets stay unchanged
unless it is itself empty, but the code overwrites them unconditionally. -/
theorem c3_counterexample :
    SparsePage.wf ⟨[0, 1], [⟨0, .finite 1⟩], 0⟩ ∧
    SparsePage.wf ⟨[0, 0], [], 0⟩ ∧
    SparsePage.pushCSC ⟨[0, 1], [⟨0, .finite 1⟩], 0⟩ ⟨[0, 0], [], 0⟩ =
      some ⟨[0, 0], [⟨0, .finite 1⟩], 0⟩ ∧
    ([0, 0] : List Nat) ≠ [0, 1] := by decide

/-- C3 (amended): when the other page's data is empty, PushCSC keeps this
page's data and base_rowid but always replaces this page's offset array with
the other's, whether or not this page is empty. -/
theorem c3_pushCSC_empty_other (p b : SparsePage) (hbd : b.data = []) :
    p.pushCSC b = some ⟨b.offset, p.data, p.base_rowid⟩ := by
  unfold SparsePage.pushCSC
  rw [if_pos hbd]

/-- C3 witness: the amended statement applied to the counterexample input. -/
theorem c3_pushCSC_empty_other_witness :
    SparsePage.pushCSC ⟨[0, 1], [⟨0, .finite 1⟩], 0⟩ ⟨[0, 0], [], 0⟩ =
      some ⟨[0, 0], [⟨0, .finite 1⟩], 0⟩ :=
  c3_pushCSC_empty_other ⟨[0, 1], [⟨0, .finite 1⟩], 0⟩ ⟨[0, 0], [], 0⟩ (by decide)

/-- C1 counterexample: both pages are well-formed, yet after
PushCSC(data-empty other) the shape invariant `data.size() == offset.back()`
fails on the result — the offsets got replaced by the other's all-zero
offsets while the data stayed. -/
theorem c1_counterexample :
    SparsePage.wf ⟨[0, 1], [⟨0, .finite 1⟩], 0⟩ ∧
    SparsePage.wf ⟨[0, 0], [], 0⟩ ∧
    SparsePage.pushCSC ⟨[0, 1], [⟨0, .finite 1⟩], 0⟩ ⟨[0, 0], [], 0⟩ =
      some ⟨[0, 0], [⟨0, .finite 1⟩], 0⟩ ∧
    ¬ SparsePage.shapeOK ⟨[0, 0], [⟨0, .finite 1⟩], 0⟩ := by decide

/-- C1 (amended): for well-formed operand pages the shape invariant
(`data.size() == offset.back()` and `offset.size() == rows + 1`) holds after
Push of an adapter batch (whenever the call returns), Push of another page,
SortIndices, SortRows and Reindex; after PushCSC it holds provided the other
page has data or this page has none — in the remaining case (other page
data-empty, this page non-empty) the code replaces the offsets while keeping
the data and the invariant breaks. -/
theorem c1_shape_invariant (p b : SparsePage) (batch : AdapterBatch)
    (missing : FVal) (n fo : Nat) (hp : p.wf) (hb : b.wf) :
    (p.push b).shapeOK ∧
    (∀ q m, p.pushBatch batch missing n = some (q, m) → q.shapeOK) ∧
    (p.sortIndices n).shapeOK ∧
    (p.sortRows n).shapeOK ∧
    (p.reindex fo n).shapeOK ∧
    (∀ q, p.pushCSC b = some q → b.data ≠ [] ∨ p.data = [] → q.shapeOK) :=
  ⟨shapeOK_of_wf (wf_push hp hb),
   fun _ _ h => shapeOK_of_wf (wf_pushBatch hp h),
   shapeOK_of_wf (wf_sortIndices hp n),
   shapeOK_of_wf (wf_sortRows hp n),
   shapeOK_of_wf (wf_reindex hp fo n),
   fun _ h hc => shapeOK_of_wf (wf_pushCSC hb hc h)⟩

/-- C1 witness: the amended invariant applied to concrete well-formed pages,
a concrete batch, and the PushCSC branch instantiated at its concrete
result. -/
theorem c1_shape_invariant_witness :
    (SparsePage.push ⟨[0, 1], [⟨0, .finite 1⟩], 0⟩
      ⟨[0, 1], [⟨1, .finite 2⟩], 0⟩).shapeOK ∧
    (SparsePage.sortIndices ⟨[0, 1], [⟨0, .finite 1⟩], 0⟩ 1).shapeOK ∧
    (SparsePage.sortRows ⟨[0, 1], [⟨0, .finite 1⟩], 0⟩ 1).shapeOK ∧
    (SparsePage.reindex ⟨[0, 1], [⟨0, .finite 1⟩], 0⟩ 3 1).shapeOK ∧
    SparsePage.shapeOK ⟨[0, 2], [⟨0, .finite 1⟩, ⟨1, .finite 2⟩], 0⟩ ∧
    SparsePage.shapeOK ⟨[0, 1, 2], [⟨0, .finite 1⟩, ⟨0, .finite 3⟩], 0⟩ := by
  have h := c1_shape_invariant ⟨[0, 1], [⟨0, .finite 1⟩], 0⟩
    ⟨[0, 1], [⟨1, .finite 2⟩], 0⟩ [[⟨1, 0, .finite 3⟩]] (.finite 0) 1 3
    (by decide) (by decide)
  refine ⟨h.1, h.2.2.1, h.2.2.2.1, h.2.2.2.2.1, ?_, ?_⟩
  · exact h.2.2.2.2.2 ⟨[0, 2], [⟨0, .finite 1⟩, ⟨1, .finite 2⟩], 0⟩ (by decide) (by decide)
  · exact h.2.1 ⟨[0, 1, 2], [⟨0, .finite 1⟩, ⟨0, .finite 3⟩], 0⟩ 1 (by decide)


/- Helper lemmas for the transpose round trip. -/

theorem getD_map_range {alpha : Type} {n c : Nat} (f : Nat → alpha) (d : alpha)
    (hc : c < n) : ((List.range n).map f).getD c d = f c := by
  rw [List.getD_eq_getElem _ _ (by simpa using hc), List.getElem_map,
    List.getElem_range]

theorem decide_eq_beq (a c : Nat) : decide (a = c) = (a == c) := by
  by_cases h : a = c
  · simp [h]
  · simp [h]

theorem flatMap_congr_mem {alpha beta : Type} {l : List alpha}
    {f g : alpha → List beta} (h : ∀ x ∈ l, f x = g x) : l.flatMap f = l.flatMap g := by
  rw [List.flatMap_def, List.flatMap_def]
  congr 1
  exact List.map_congr_left h

theorem filter_map_comm {alpha beta : Type} (f : alpha → beta) (p : beta → Bool) :
    ∀ (l : List alpha), (l.map f).filter p = (l.filter (fun x => p (f x))).map f := by
  intro l
  induction l with
  | nil => rfl
  | cons x xs ih =>
    cases h : p (f x) with
    | true => simp [List.filter_cons, h, ih]
    | false => simp [List.filter_cons, h, ih]

theorem triples_of_data_nil {p : SparsePage} (h : p.data = []) : p.triples = [] := by
  unfold SparsePage.triples
  have hrow : ∀ i, p.row i = [] := by
    intro i
    apply List.eq_nil_iff_forall_not_mem.mpr
    intro e he
    have := mem_data_of_mem_row he
    rw [h] at this
    simp at this
  rw [List.flatMap_def]
  apply List.flatten_eq_nil_iff.mpr
  intro l hl
  rcases List.mem_map.mp hl with ⟨i, _, hi⟩
  rw [← hi, hrow i, List.map_nil]

theorem mem_annotated {L : List (List Entry)} {x : Nat × Entry}
    (hx : x ∈ annotated L) : x.1 < L.length ∧ ∃ r ∈ L, x.2 ∈ r := by
  unfold annotated at hx
  rcases List.mem_flatMap.mp hx with ⟨q, hq, hxq⟩
  rcases List.mem_map.mp hxq with ⟨e, he, hex⟩
  obtain ⟨_, hlt, hmem⟩ := mem_withIdx L 0 q hq
  rw [← hex]
  exact ⟨by simpa using hlt, q.2, hmem, he⟩

theorem annotated_length {L : List (List Entry)} :
    (annotated L).length = L.flatten.length := by
  unfold annotated
  rw [List.flatMap_def, List.length_flatten, List.map_map, List.length_flatten]
  congr 1
  have h1 : (List.length ∘ fun q : Nat × List Entry => q.2.map (fun e => (q.1, e))) =
      (List.length ∘ Prod.snd) := by
    funext q
    simp
  rw [h1, ← List.map_map, map_snd_withIdx]

theorem map_annotated {L : List (List Entry)} {beta : Type} (g : Nat → Entry → beta) :
    (withIdx 0 L).flatMap (fun q => q.2.map (fun e => g q.1 e)) =
      (annotated L).map (fun x => g x.1 x.2) := by
  unfold annotated
  rw [map_flatMap_comm]
  apply flatMap_congr_mem
  intro q _
  rw [List.map_map]
  rfl


theorem withIdx_map_range {alpha : Type} :
    ∀ (n : Nat) (f : Nat → alpha) (k : Nat),
      withIdx k ((List.range n).map f) = (List.range n).map (fun c => (k + c, f c)) := by
  intro n
  induction n with
  | zero => intro f k; rfl
  | succ n ih =>
    intro f k
    simp only [List.range_succ_eq_map, List.map_cons, List.map_map]
    show (k, f 0) :: withIdx (k + 1) ((List.range n).map (f ∘ Nat.succ)) = _
    rw [ih (f ∘ Nat.succ) (k + 1), Nat.add_zero]
    congr 1
    apply List.map_congr_left
    intro c _
    show (k + 1 + c, f (c + 1)) = (k + (c + 1), f (c + 1))
    rw [show k + 1 + c = k + (c + 1) from by omega]

theorem flatMap_map_comp {alpha beta gamma : Type} (h : alpha → beta)
    (g : beta → List gamma) (l : List alpha) :
    (l.map h).flatMap g = l.flatMap (fun x => g (h x)) := by
  induction l with
  | nil => rfl
  | cons x xs ih => simp only [List.map_cons, List.flatMap_cons, ih]

theorem flatMap_range_rows {beta : Type} (q : SparsePage)
    (f : Nat → List Entry → List beta) :
    (List.range q.size).flatMap (fun i => f i (q.row i)) =
      (withIdx 0 (slices q.data q.offset)).flatMap (fun x => f x.1 x.2) := by
  rw [← size_eq_slices_length q]
  have heq : (fun i => f i (q.row i)) =
      (fun i => f (0 + i) ((slices q.data q.offset).getD i [])) := by
    funext i
    rw [Nat.zero_add]
    rfl
  rw [heq]
  exact flatMap_range_withIdx ([] : List Entry) (slices q.data q.offset) f 0

theorem triples_eq_annotated (q : SparsePage) :
    q.triples = (annotated (slices q.data q.offset)).map
      (fun x => (q.base_rowid + x.1, x.2.index, x.2.fvalue)) := by
  unfold SparsePage.triples
  rw [flatMap_range_rows q
    (fun i r => r.map (fun e => (q.base_rowid + i, e.index, e.fvalue)))]
  exact map_annotated (fun i e => (q.base_rowid + i, e.index, e.fvalue))

theorem transChunks_eq_bucketBy (p : SparsePage) (C : Nat) (hbase : p.base_rowid = 0) :
    transChunks p C = bucketBy C (annotated (slices p.data p.offset)) := by
  unfold transChunks bucketBy
  apply List.map_congr_left
  intro c _
  refine (flatMap_range_rows p (fun i r => (r.filter (fun e => decide (e.index = c))).map
    (fun e => Entry.mk ((p.base_rowid + i) % u32Mod) e.fvalue))).trans ?_
  unfold annotated
  rw [filter_flatMap_comm, map_flatMap_comm]
  apply flatMap_congr_mem
  intro q _
  show (q.2.filter (fun e => decide (e.index = c))).map
      (fun e => Entry.mk ((p.base_rowid + q.1) % u32Mod) e.fvalue) = _
  rw [filter_map_comm, List.map_map]
  have hfc : q.2.filter (fun e => decide (e.index = c)) =
      q.2.filter (fun e => e.index == c) :=
    List.filter_congr (fun e _ => decide_eq_beq e.index c)
  rw [hfc]
  apply List.map_congr_left
  intro e _
  show Entry.mk ((p.base_rowid + q.1) % u32Mod) e.fvalue =
    Entry.mk (q.1 % u32Mod) e.fvalue
  rw [hbase, Nat.zero_add]

theorem annotated_bucketBy (C : Nat) (l : List (Nat × Entry)) :
    annotated (bucketBy C l) = (List.range C).flatMap (fun c =>
      ((l.filter (fun x => x.2.index == c)).map
        (fun x => Entry.mk (x.1 % u32Mod) x.2.fvalue)).map (fun e2 => (c, e2))) := by
  unfold annotated bucketBy
  rw [withIdx_map_range, flatMap_map_comp]
  apply flatMap_congr_mem
  intro c _
  show ((l.filter (fun x => x.2.index == c)).map
      (fun x => Entry.mk (x.1 % u32Mod) x.2.fvalue)).map (fun e2 => ((0 + c : Nat), e2)) = _
  apply List.map_congr_left
  intro e2 _
  rw [Nat.zero_add]

theorem annotated_bucketBy_perm (C : Nat) (l : List (Nat × Entry))
    (hk : ∀ x ∈ l, x.2.index < C) :
    (annotated (bucketBy C l)).Perm (l.map (fun x =>
      ((x.2.index : Nat), Entry.mk (x.1 % u32Mod) x.2.fvalue))) := by
  rw [annotated_bucketBy]
  have hstep : ∀ c ∈ List.range C,
      ((l.filter (fun x => x.2.index == c)).map
        (fun x => Entry.mk (x.1 % u32Mod) x.2.fvalue)).map (fun e2 => (c, e2)) =
      (l.filter (fun x => x.2.index == c)).map (fun x =>
        ((x.2.index : Nat), Entry.mk (x.1 % u32Mod) x.2.fvalue)) := by
    intro c _
    rw [List.map_map]
    apply List.map_congr_left
    intro x hx
    have hxc : x.2.index = c := by
      have := (List.mem_filter.mp hx).2
      simpa using this
    show (c, Entry.mk (x.1 % u32Mod) x.2.fvalue) = _
    rw [hxc]
  rw [flatMap_congr_mem hstep, ← map_flatMap_comm]
  exact (flatMap_filter_key_perm (fun x => x.2.index) C l hk).map _

theorem flatten_bucketBy_perm (C : Nat) (l : List (Nat × Entry))
    (hk : ∀ x ∈ l, x.2.index < C) :
    ((bucketBy C l).flatten).Perm
      (l.map (fun x => Entry.mk (x.1 % u32Mod) x.2.fvalue)) := by
  unfold bucketBy
  rw [← List.flatMap_def, ← map_flatMap_comm]
  exact (flatMap_filter_key_perm (fun x => x.2.index) C l hk).map _

theorem mem_bucketBy {C : Nat} {l : List (Nat × Entry)} {r : List Entry} {e2 : Entry}
    (hr : r ∈ bucketBy C l) (he : e2 ∈ r) :
    ∃ x ∈ l, e2 = Entry.mk (x.1 % u32Mod) x.2.fvalue := by
  unfold bucketBy at hr
  rcases List.mem_map.mp hr with ⟨c, _, hc⟩
  rw [← hc] at he
  rcases List.mem_map.mp he with ⟨x, hx, hxe⟩
  exact ⟨x, (List.mem_filter.mp hx).1, hxe.symm⟩

theorem getTranspose_pos (p : SparsePage) (C : Nat) (hpd : p.data ≠ [])
    (hcols : ∀ e ∈ p.data, e.index < C) (hbase : p.base_rowid = 0) :
    p.getTranspose C =
      some ⟨offsetsFrom 0 (bucketBy C (annotated (slices p.data p.offset))),
        (bucketBy C (annotated (slices p.data p.offset))).flatten, 0⟩ := by
  unfold SparsePage.getTranspose
  rw [if_neg hpd]
  have hguard : ((List.range p.size).any (fun i => (p.row i).any
      (fun e => decide (C ≤ e.index)))) = false := by
    rw [List.any_eq_false]
    intro i _
    intro hcon
    rcases List.any_eq_true.mp hcon with ⟨e, he, hee⟩
    simp only [decide_eq_true_eq] at hee
    have := hcols e (mem_data_of_mem_row he)
    omega
  have hnot : ¬ ((List.range p.size).any (fun i => (p.row i).any
      (fun e => decide (C ≤ e.index))) = true) := by
    rw [hguard]
    exact Bool.false_ne_true
  rw [if_neg hnot, transChunks_eq_bucketBy p C hbase]


theorem map_map_eta {alpha beta gamma : Type} (f : beta → gamma) (g : alpha → beta)
    (l : List alpha) : (l.map g).map f = l.map (fun x => f (g x)) := by
  rw [List.map_map]
  rfl

theorem perm_of_eq {alpha : Type} {l1 l2 : List alpha} (h : l1 = l2) : l1.Perm l2 := by
  rw [h]

/-- C8 counterexample: a well-formed page whose column indices are all below
numCols, but with base_rowid = 1; the inner transpose stores the global row
index base_rowid + 0 = 1 (data.cc:1036), and the outer transpose with
numRows(P) = 1 groups then fails its trailing `CHECK_EQ(offset.Size(),
num_columns + 1)` because the builder opens a group for index 1 — the round
trip aborts instead of reproducing the page's triples. -/
theorem c8_counterexample :
    SparsePage.wf ⟨[0, 1], [⟨0, .finite 1⟩], 1⟩ ∧
    (∀ e ∈ ([⟨0, .finite 1⟩] : List Entry), e.index < 1) ∧
    SparsePage.getTranspose ⟨[0, 1], [⟨0, .finite 1⟩], 1⟩ 1 =
      some ⟨[0, 1], [⟨1, .finite 1⟩], 0⟩ ∧
    SparsePage.getTranspose ⟨[0, 1], [⟨1, .finite 1⟩], 0⟩
      (SparsePage.size ⟨[0, 1], [⟨0, .finite 1⟩], 1⟩) = none := by decide

/-- C8 (amended): for a well-formed page with base_rowid = 0, at most 2^32
rows, and every column index below numCols and below 2^32 (the width of the
u32 index field), GetTranspose(GetTranspose(P, numCols), numRows(P)) succeeds
and reproduces P's multiset of (row, column, value) triples. -/
theorem c8_transpose_roundtrip (p : SparsePage) (numCols : Nat) (hp : p.wf)
    (hbase : p.base_rowid = 0) (hsize : p.size ≤ u32Mod)
    (hcols : ∀ e ∈ p.data, e.index < numCols)
    (hidx : ∀ e ∈ p.data, e.index < u32Mod) :
    ∃ t r, p.getTranspose numCols = some t ∧
      t.getTranspose p.size = some r ∧ r.triples.Perm p.triples := by
  obtain ⟨hp1, hp2, hp3, hp4⟩ := hp
  by_cases hpd : p.data = []
  · refine ⟨⟨List.replicate (numCols + 1) 0, [], 0⟩,
      ⟨List.replicate (p.size + 1) 0, [], 0⟩, ?_, ?_, ?_⟩
    · unfold SparsePage.getTranspose
      rw [if_pos hpd]
    · unfold SparsePage.getTranspose
      rw [if_pos rfl]
    · rw [triples_of_data_nil rfl, triples_of_data_nil hpd]
  · set lA := annotated (slices p.data p.offset) with hlA
    set ch := bucketBy numCols lA with hch
    set lB := annotated ch with hlB
    set chR := bucketBy p.size lB with hchR
    have hmemA1 : ∀ x ∈ lA, x.1 < p.size := by
      intro x hx
      rw [hlA] at hx
      obtain ⟨h1, _⟩ := mem_annotated hx
      rw [size_eq_slices_length p] at h1
      exact h1
    have hmemA2 : ∀ x ∈ lA, x.2 ∈ p.data := by
      intro x hx
      rw [hlA] at hx
      obtain ⟨_, r, hr, hxr⟩ := mem_annotated hx
      exact mem_of_mem_slices p.offset p.data r hr x.2 hxr
    have hkA : ∀ x ∈ lA, x.2.index < numCols := fun x hx => hcols x.2 (hmemA2 x hx)
    have hinner : p.getTranspose numCols = some ⟨offsetsFrom 0 ch, ch.flatten, 0⟩ := by
      rw [hch, hlA]
      exact getTranspose_pos p numCols hpd hcols hbase
    have hAlen : lA.length = p.data.length := by
      rw [hlA, annotated_length, slices_flatten hp1 hp2 hp3 hp4.symm]
    have hTlen : ch.flatten.length = p.data.length := by
      rw [hch, (flatten_bucketBy_perm numCols lA hkA).length_eq, List.length_map, hAlen]
    have hTne : ch.flatten ≠ [] := by
      intro hcon
      rw [hcon] at hTlen
      exact hpd (List.length_eq_zero.mp hTlen.symm)
    have hTidx : ∀ e ∈ ch.flatten, e.index < p.size := by
      intro e he
      rw [hch] at he
      rcases List.mem_flatten.mp he with ⟨r, hr, her⟩
      rcases mem_bucketBy hr her with ⟨x, hx, hex⟩
      rw [hex]
      show x.1 % u32Mod < p.size
      rw [Nat.mod_eq_of_lt (lt_of_lt_of_le (hmemA1 x hx) hsize)]
      exact hmemA1 x hx
    have houter : SparsePage.getTranspose ⟨offsetsFrom 0 ch, ch.flatten, 0⟩ p.size =
        some ⟨offsetsFrom 0 chR, chR.flatten, 0⟩ := by
      have h := getTranspose_pos ⟨offsetsFrom 0 ch, ch.flatten, 0⟩ p.size hTne hTidx rfl
      rw [h]
      have hsl : slices (SparsePage.data ⟨offsetsFrom 0 ch, ch.flatten, 0⟩)
          (SparsePage.offset ⟨offsetsFrom 0 ch, ch.flatten, 0⟩) = ch :=
        slices_of_builder ch
      rw [hsl, ← hlB, ← hchR]
    have hkB : ∀ x ∈ lB, x.2.index < p.size := by
      intro x hx
      rw [hlB] at hx
      obtain ⟨_, r, hr, hxr⟩ := mem_annotated hx
      rw [hch] at hr
      rcases mem_bucketBy hr hxr with ⟨y, hy, hye⟩
      rw [hye]
      show y.1 % u32Mod < p.size
      rw [Nat.mod_eq_of_lt (lt_of_lt_of_le (hmemA1 y hy) hsize)]
      exact hmemA1 y hy
    refine ⟨_, _, hinner, houter, ?_⟩
    have htriR : SparsePage.triples ⟨offsetsFrom 0 chR, chR.flatten, 0⟩ =
        (annotated chR).map (fun x => ((0 : Nat) + x.1, x.2.index, x.2.fvalue)) := by
      rw [triples_eq_annotated]
      have hsl : slices (SparsePage.data ⟨offsetsFrom 0 chR, chR.flatten, 0⟩)
          (SparsePage.offset ⟨offsetsFrom 0 chR, chR.flatten, 0⟩) = chR :=
        slices_of_builder chR
      rw [hsl]
    rw [htriR]
    refine ((annotated_bucketBy_perm p.size lB hkB).map
      (fun x => ((0 : Nat) + x.1, x.2.index, x.2.fvalue))).trans ?_
    rw [map_map_eta]
    refine ((annotated_bucketBy_perm numCols lA hkA).map _).trans ?_
    rw [map_map_eta]
    rw [triples_eq_annotated p, ← hlA]
    refine perm_of_eq (List.map_congr_left ?_)
    intro x hx
    show ((0 : Nat) + (x.1 % u32Mod), x.2.index % u32Mod, x.2.fvalue) =
      (p.base_rowid + x.1, x.2.index, x.2.fvalue)
    rw [Nat.mod_eq_of_lt (lt_of_lt_of_le (hmemA1 x hx) hsize),
      Nat.mod_eq_of_lt (hidx x.2 (hmemA2 x hx)), hbase]

/-- C8 witness: the amended round trip applied to a concrete two-row page
with columns 0 and 2 and numCols = 3. -/
theorem c8_transpose_roundtrip_witness :
    ∃ t r, SparsePage.getTranspose ⟨[0, 2], [⟨0, .finite 1⟩, ⟨2, .finite 2⟩], 0⟩ 3 =
        some t ∧
      SparsePage.getTranspose t
        (SparsePage.size ⟨[0, 2], [⟨0, .finite 1⟩, ⟨2, .finite 2⟩], 0⟩) = some r ∧
      r.triples.Perm
        (SparsePage.triples ⟨[0, 2], [⟨0, .finite 1⟩, ⟨2, .finite 2⟩], 0⟩) :=
  c8_transpose_roundtrip ⟨[0, 2], [⟨0, .finite 1⟩, ⟨2, .finite 2⟩], 0⟩ 3
    (by decide) (by decide) (by decide) (by decide) (by decide)

end Xgboost
